import Mathlib

/-!
Shallow embedding of `elastalert_modules/feishu_alert_annotation.py`.

The Python module defines one class, `FeishuAlert`, with:
  * `__init__(rule)` — extracts `feishualert_url` / `feishualert_botid` /
    `feishualert_title` / `feishualert_body` / `feishualert_skip` from the rule
    mapping and raises `EAException` when bot id, title or body is falsy;
  * `_flatten_dict(d, parent_key, sep)` — flattens nested dicts with
    `.`-joined keys;
  * `_safe_format(text, data)` — `text.format(**data)` with a manual
    per-key replacement fallback on `KeyError` and return-the-template
    fallback on any other exception;
  * `alert(matches)` — skip-window check, merge-context construction,
    body rendering, and one HTTP POST whose failure is re-raised as
    `EAException`.

Python dicts are modelled as insertion-ordered association lists with unique
keys (`Dict`); JSON-like runtime values as the inductive `Value`.  Ambient
state (the wall clock and the HTTP transport) is passed to `alert`
explicitly: the two `time.strftime` results become the `now` / `alert_time`
string arguments and the outcome of `requests.post` + `raise_for_status`
becomes an `HttpResult` argument.  Raising an exception is modelled by the
`Except`/result constructors noted at each definition.
-/

namespace Feishu

/-- JSON-like Python values appearing in rules and matches: strings, ints,
booleans, `None`, lists and (insertion-ordered) dicts. -/
inductive Value where
  | vStr (s : String)
  | vInt (n : Int)
  | vBool (b : Bool)
  | vNull
  | vList (xs : List Value)
  | vDict (fields : List (String × Value))

/-- A Python dict: insertion-ordered association list with unique keys. -/
abbrev Dict := List (String × Value)

/-- Whether a value is a mapping (`isinstance(v, dict)` in the source). -/
def Value.isDict : Value → Bool
  | Value.vDict _ => true
  | _ => false

/-- Python `d.get(k)` returning `None` as `none`: first entry with key `k`. -/
def dictGet (d : Dict) (k : String) : Option Value :=
  (d.find? (fun kv => kv.1 = k)).map (fun kv => kv.2)

/-- Python `d.get(k, dflt)`. -/
def dictGetD (d : Dict) (k : String) (dflt : Value) : Value :=
  (dictGet d k).getD dflt

/-- Python `d[k] = v`: overwrite in place when the key exists (keeping its
position), append otherwise. -/
def dictInsert (d : Dict) (k : String) (v : Value) : Dict :=
  match d with
  | [] => [(k, v)]
  | (k0, v0) :: rest => if k0 = k then (k0, v) :: rest else (k0, v0) :: dictInsert rest k v

/-- Python `a.update(b)` (also the semantics of `{**a, **b}` and of a dict
literal followed by `**b`): insert the entries of `b` left to right. -/
def dictUpdate (a b : Dict) : Dict :=
  b.foldl (fun acc kv => dictInsert acc kv.1 kv.2) a

/-- Python `d.setdefault(k, dflt)`: unchanged when `k` is present, append
`(k, dflt)` otherwise. -/
def dictSetdefault (d : Dict) (k : String) (dflt : Value) : Dict :=
  match dictGet d k with
  | some _ => d
  | none => d ++ [(k, dflt)]

/-- Left brace character (written via its code point, `"{"`). -/
def lbrace : Char := Char.ofNat 123

/-- Right brace character (written via its code point, `"}"`). -/
def rbrace : Char := Char.ofNat 125

/-- Single-quote character used by Python `repr` of strings. -/
def squote : String := String.singleton (Char.ofNat 39)

mutual
/-- Python `repr` for the modelled values (only the scalar cases are relied
on by the claims; containers follow Python `repr` of lists/dicts). -/
def pyRepr : Value → String
  | Value.vStr s => squote ++ s ++ squote
  | Value.vInt n => toString n
  | Value.vBool b => if b then "True" else "False"
  | Value.vNull => "None"
  | Value.vList xs => "[" ++ String.intercalate ", " (pyReprList xs) ++ "]"
  | Value.vDict d =>
      String.singleton lbrace ++ String.intercalate ", " (pyReprFields d) ++ String.singleton rbrace

/-- The element renderings of a list value. -/
def pyReprList : List Value → List String
  | [] => []
  | v :: vs => pyRepr v :: pyReprList vs

/-- The `key: value` renderings of a dict value. -/
def pyReprFields : List (String × Value) → List String
  | [] => []
  | (k, v) :: rest => (squote ++ k ++ squote ++ ": " ++ pyRepr v) :: pyReprFields rest
end

/-- Python `str(v)`: identity on strings, `repr` otherwise (for ints, bools
and `None` the two agree, and those cases are spelled out so they reduce
without the mutual recursion). -/
def pyStr : Value → String
  | Value.vStr s => s
  | Value.vInt n => toString n
  | Value.vBool b => if b then "True" else "False"
  | Value.vNull => "None"
  | v => pyRepr v

/-- Python truthiness of a value, as used by `all([...])` in `__init__`:
empty strings/containers, `0`, `False` and `None` are falsy. -/
def truthy : Value → Bool
  | Value.vStr s => s != ""
  | Value.vInt n => n != 0
  | Value.vBool b => b
  | Value.vNull => false
  | Value.vList xs => !xs.isEmpty
  | Value.vDict d => !d.isEmpty

/-- Python `a <= b` on strings, on the underlying character lists:
lexicographic by code point, a proper prefix being smaller. -/
def pyLeChars : List Char → List Char → Bool
  | [], _ => true
  | _ :: _, [] => false
  | c :: cs, d :: ds => if c < d then true else if c = d then pyLeChars cs ds else false

/-- Python `a <= b` on strings. -/
def pyStrLe (a b : String) : Bool := pyLeChars a.data b.data

/-- The literal text `"{" + key + "}"` scanned for by the fallback branch of
`_safe_format`. -/
def placeholder (key : String) : String := "\x7b" ++ key ++ "\x7d"

/-- Python `s.replace(old, new)` for a non-empty pattern `p0 :: prest`:
leftmost non-overlapping occurrences are replaced.  The `Nat` argument is a
fuel bounded below by the list length (each step consumes at least one
character), present only to make the recursion structural. -/
def pyReplaceF (p0 : Char) (prest rep : List Char) : Nat → List Char → List Char
  | _, [] => []
  | 0, l => l
  | fuel + 1, c :: rest =>
      if c == p0 && prest.isPrefixOf rest then
        rep ++ pyReplaceF p0 prest rep fuel (rest.drop prest.length)
      else
        c :: pyReplaceF p0 prest rep fuel rest

/-- Python `s.replace(pat, rep)`.  All call sites in the source pass the
non-empty pattern `"{" + key + "}"`; the empty-pattern case (unreached) is
the identity. -/
def pyStrReplace (s pat rep : String) : String :=
  match pat.data with
  | [] => s
  | p0 :: prest => String.mk (pyReplaceF p0 prest rep.data s.data.length s.data)

/-- The `except KeyError` branch of `_safe_format`: for each key/value of
`data` in insertion order, replace the literal `"{" + key + "}"` with
`str(value)`. -/
def manualReplace (text : String) (data : Dict) : String :=
  data.foldl (fun t kv => pyStrReplace t (placeholder kv.1) (pyStr kv.2)) text

/-- The exception classes `str.format` can raise, as distinguished by
`_safe_format`: `KeyError` (named field absent from `data`) selects the
manual-replacement fallback, every other class selects the
return-the-template branch. -/
inductive PyErr where
  | keyError (k : String)
  | indexError
  | attrError
  | valueError
  | otherError

/-- Resolution of one `{...}` replacement field against keyword arguments
`data`, following CPython order: the field name is what precedes `!`/`:`,
its first segment (before `.`/`[`) is the argument name; an empty or numeric
name is positional (`IndexError`, no positional arguments are passed); a
missing name is `KeyError`; attribute/item access on the modelled JSON
values and conversion/format specs are not modelled and map to the
non-`KeyError` classes (`_safe_format` treats every such class alike). -/
def resolveField (field : List Char) (data : Dict) : Except PyErr (List Char) :=
  let namePart := field.takeWhile (fun c => (c != ':') && (c != '!'))
  let name := namePart.takeWhile (fun c => (c != '.') && (c != '['))
  let trailing := namePart.drop name.length
  if name.isEmpty || name.all Char.isDigit then Except.error PyErr.indexError
  else
    match dictGet data (String.mk name) with
    | none => Except.error (PyErr.keyError (String.mk name))
    | some v =>
        if !trailing.isEmpty then Except.error PyErr.attrError
        else if field.length != namePart.length then Except.error PyErr.otherError
        else Except.ok (pyStr v).data

/-- Scanner of `text.format(**data)`: literal characters are copied, `{{` and
`}}` are brace escapes, a lone `}` or an unterminated/nested `{` is a
`ValueError`, and each `{field}` is resolved by `resolveField`.  The third
argument is `some acc` while inside a replacement field (accumulated in
reverse).  The `Nat` argument is a fuel bounded below by the list length
(each step consumes exactly one character), present only to make the
recursion structural; `pyFormat` supplies `text.length`. -/
def scanFmt (data : Dict) : Nat → List Char → Option (List Char) → Except PyErr (List Char)
  | _, [], none => Except.ok []
  | _, [], some _ => Except.error PyErr.valueError
  | 0, _ :: _, _ => Except.error PyErr.valueError
  | fuel + 1, c :: rest, none =>
      if c == rbrace then
        match rest with
        | r :: rest2 =>
            if r == rbrace then (scanFmt data fuel rest2 none).map (fun t => rbrace :: t)
            else Except.error PyErr.valueError
        | [] => Except.error PyErr.valueError
      else if c == lbrace then
        match rest with
        | r :: rest2 =>
            if r == lbrace then (scanFmt data fuel rest2 none).map (fun t => lbrace :: t)
            else scanFmt data fuel rest (some [])
        | [] => scanFmt data fuel rest (some [])
      else (scanFmt data fuel rest none).map (fun t => c :: t)
  | fuel + 1, c :: rest, some acc =>
      if c == rbrace then
        match resolveField acc.reverse data with
        | Except.error e => Except.error e
        | Except.ok s => (scanFmt data fuel rest none).map (fun t => s ++ t)
      else if c == lbrace then Except.error PyErr.valueError
      else scanFmt data fuel rest (some (c :: acc))

/-- Python `text.format(**data)`: the rendered string, or the exception
class it raises. -/
def pyFormat (text : String) (data : Dict) : Except PyErr String :=
  (scanFmt data text.data.length text.data none).map String.mk

/-- `FeishuAlert._safe_format`: try `text.format(**data)`; on `KeyError` do
the per-key manual replacement; on any other exception log a warning and
return the template unchanged.  Total by construction — the Python `try`
blocks swallow every exception. -/
def safe_format (text : String) (data : Dict) : String :=
  match pyFormat text data with
  | Except.ok s => s
  | Except.error (PyErr.keyError _) => manualReplace text data
  | Except.error _ => text

/-- One loop of `FeishuAlert._flatten_dict` with `sep = "."`: `items` is the
dict built so far, the third argument the remaining entries of `d`; dict
values are flattened recursively under the joined key and merged with
`items.update(...)`, other values are stored under the joined key. -/
def flattenGo (parent : String) (items : Dict) : Dict → Dict
  | [] => items
  | (k, v) :: rest =>
      let nk := if parent = "" then k else parent ++ "." ++ k
      match v with
      | Value.vDict d => flattenGo parent (dictUpdate items (flattenGo nk [] d)) rest
      | _ => flattenGo parent (dictInsert items nk v) rest

/-- `FeishuAlert._flatten_dict(d, parent_key)` with the default `sep = "."`. -/
def flatten_dict (d : Dict) (parent_key : String) : Dict :=
  flattenGo parent_key [] d

/-- Lookup of the LAST entry with key `k` (later entries overwrite earlier
ones, as Python dict insertion does).  Used to state what flattening does on
joined-key collisions. -/
def dictGetLast : Dict → String → Option Value
  | [], _ => none
  | (k0, v0) :: rest, k =>
      Option.or (dictGetLast rest k) (if k0 = k then some v0 else none)

/-- Modelled from the spec: the leaves of a nested mapping paired with their
`.`-joined key paths, in iteration order ("keys are the parent and child
keys concatenated with a `.` separator along each path, with non-mapping
values copied as leaves under their joined key path").  This is the
spec-side description of flattening, to be compared with the source-side
`flatten_dict`. -/
def leafPaths (parent : String) : Dict → Dict
  | [] => []
  | (k, v) :: rest =>
      let nk := if parent = "" then k else parent ++ "." ++ k
      match v with
      | Value.vDict d => leafPaths nk d ++ leafPaths parent rest
      | _ => (nk, v) :: leafPaths parent rest

/-- The configuration extracted by `FeishuAlert.__init__` together with the
original rule mapping (`self.rule`). -/
structure Config where
  url : Value
  bot_id : Value
  title : Value
  body : Value
  skip : Value
  rule : Dict

/-- The default webhook prefix of `__init__`. -/
def defaultFeishuUrl : String := "https://open.feishu.cn/open-apis/bot/v2/hook/"

/-- `FeishuAlert.__init__(rule)`: extract the five options with their
defaults and raise `EAException` (modelled as `Except.error` with the
source's message) unless bot id, title and body are all truthy. -/
def init (rule : Dict) : Except String Config :=
  let url := dictGetD rule "feishualert_url" (Value.vStr defaultFeishuUrl)
  let bot_id := dictGetD rule "feishualert_botid" (Value.vStr "")
  let title := dictGetD rule "feishualert_title" (Value.vStr "")
  let body := dictGetD rule "feishualert_body" (Value.vStr "")
  let skip := dictGetD rule "feishualert_skip" (Value.vDict [])
  if truthy bot_id && truthy title && truthy body then
    Except.ok ⟨url, bot_id, title, body, skip, rule⟩
  else
    Except.error "Configure botid|title|body is invalid"

/-- `FeishuAlert.get_info`. -/
def get_info : List (String × String) := [("type", "FeishuAlert")]

/-- `FeishuAlert.get_rule`. -/
def get_rule (cfg : Config) : Dict := cfg.rule

/-- Outcome of `requests.post(...)` followed by `response.raise_for_status()`:
either a 2xx response, or a `RequestException` (connection failure, timeout,
or the `HTTPError` raised for a non-2xx status) with its message. -/
inductive HttpResult where
  | success
  | failure (err : String)

/-- The one outbound HTTP POST a dispatch performs: its URL and JSON body. -/
structure PostRequest where
  url : String
  body : Value

/-- Observable outcome of `FeishuAlert.alert`: an early return inside the
silence window (nothing sent), a normal return after one successful POST, or
an `EAException` raised after one failed POST. -/
inductive AlertResult where
  | skipped
  | completed (post : PostRequest)
  | deliveryError (post : PostRequest) (msg : String)

/-- The silence-window test of `alert`: both `"start"` and `"end"` present in
`self.skip` and `skip["start"] <= now <= skip["end"]`.  Per the configuration
surface the window bounds are `HH:MM:SS` strings; the comparison is Python
string comparison (a non-string bound or a non-dict `skip` is outside the
modelled configuration surface, where the test never fires). -/
def skipNow (skip : Value) (now : String) : Bool :=
  match skip with
  | Value.vDict d =>
      match dictGet d "start", dictGet d "end" with
      | some (Value.vStr s), some (Value.vStr e) => pyStrLe s now && pyStrLe now e
      | _, _ => false
  | _ => false

/-- The base merge context of `alert`:
`{"feishualert_title": self.title, "feishualert_time": alert_time, **self.rule}`. -/
def mergeBase (cfg : Config) (alert_time : String) : Dict :=
  dictUpdate
    [("feishualert_title", cfg.title), ("feishualert_time", Value.vStr alert_time)]
    cfg.rule

/-- The flattened first match with the two convenience defaults of `alert`
applied: `host.name` falls back to `host_name` then `"N/A"`, `@timestamp` to
`timestamp` then the call's rendered send time. -/
def flatDefaults (m : Dict) (alert_time : String) : Dict :=
  let flat := flatten_dict m ""
  let flat1 := dictSetdefault flat "host.name" (dictGetD flat "host_name" (Value.vStr "N/A"))
  dictSetdefault flat1 "@timestamp" (dictGetD flat1 "timestamp" (Value.vStr alert_time))

/-- The full merge context of `alert`: the base context, updated with the
flattened first match (match keys win) when the match sequence is non-empty. -/
def mergeContext (cfg : Config) (alert_time : String) (ms : List Dict) : Dict :=
  match ms with
  | [] => mergeBase cfg alert_time
  | m :: _ => dictUpdate (mergeBase cfg alert_time) (flatDefaults m alert_time)

/-- The fixed-shape Feishu message body built by `alert`. -/
def mkMessage (text : String) : Value :=
  Value.vDict [("msg_type", Value.vStr "text"), ("content", Value.vDict [("text", Value.vStr text)])]

/-- `FeishuAlert.alert(matches)`.  `now` and `alert_time` are the two
`time.strftime` results (`HH:MM:SS` and `YYYY-MM-DD HH:MM:SS`), `ms`
the sequence of match mappings (named `matches` in the source, a reserved
word here), `http` the transport outcome of the one POST.  The body template is a string per the configuration surface
(`pyStr cfg.body` is the identity there).  The `try` around `_safe_format`
in the source is dead in the model because `safe_format` is total, exactly
as the Python function swallows every exception itself. -/
def alert (cfg : Config) (now alert_time : String) (ms : List Dict)
    (http : HttpResult) : AlertResult :=
  if skipNow cfg.skip now then AlertResult.skipped
  else
    let merge_data := mergeContext cfg alert_time ms
    let formatted_body := safe_format (pyStr cfg.body) merge_data
    let message := mkMessage formatted_body
    let post : PostRequest := ⟨pyStr cfg.url ++ pyStr cfg.bot_id, message⟩
    match http with
    | HttpResult.success => AlertResult.completed post
    | HttpResult.failure e => AlertResult.deliveryError post ("Feishu request failed: " ++ e)

/-- Top-level field lookup in a message body (used to inspect outbound
payloads): `none` when the body is not a dict or lacks the key. -/
def msgField (msg : Value) (k : String) : Option Value :=
  match msg with
  | Value.vDict fields => dictGet fields k
  | _ => none

/-- The end-to-end example rule: botid `"B"`, title `"T"`, body
`"Host: {host.name} Status: {status}"`. -/
def ruleC1 : Dict :=
  [("feishualert_botid", Value.vStr "B"), ("feishualert_title", Value.vStr "T"),
   ("feishualert_body", Value.vStr "Host: \x7bhost.name\x7d Status: \x7bstatus\x7d")]

/-- The configuration extracted from `ruleC1`. -/
def cfgC1 : Config :=
  ⟨Value.vStr defaultFeishuUrl, Value.vStr "B", Value.vStr "T",
   Value.vStr "Host: \x7bhost.name\x7d Status: \x7bstatus\x7d", Value.vDict [], ruleC1⟩

/-- The end-to-end example match `{"host": {"name": "srv1"}, "status": 502}`. -/
def matchC1 : Dict :=
  [("host", Value.vDict [("name", Value.vStr "srv1")]), ("status", Value.vInt 502)]

/-- A minimal valid rule with a literal body (no placeholders). -/
def ruleC9 : Dict :=
  [("feishualert_botid", Value.vStr "B"), ("feishualert_title", Value.vStr "T"),
   ("feishualert_body", Value.vStr "hello")]

/-- The configuration extracted from `ruleC9`. -/
def cfgC9 : Config :=
  ⟨Value.vStr defaultFeishuUrl, Value.vStr "B", Value.vStr "T",
   Value.vStr "hello", Value.vDict [], ruleC9⟩

/-- The post produced by dispatching `cfgC9` with no matches. -/
def postC9 : PostRequest :=
  ⟨"https://open.feishu.cn/open-apis/bot/v2/hook/B", mkMessage "hello"⟩

/-- The skip window `{"start": "22:00:00", "end": "23:00:00"}`. -/
def skipC3 : Dict :=
  [("start", Value.vStr "22:00:00"), ("end", Value.vStr "23:00:00")]

/-- A valid configuration carrying the `skipC3` silence window. -/
def cfgC3 : Config :=
  ⟨Value.vStr defaultFeishuUrl, Value.vStr "B", Value.vStr "T",
   Value.vStr "hello", Value.vDict skipC3,
   [("feishualert_botid", Value.vStr "B"), ("feishualert_title", Value.vStr "T"),
    ("feishualert_body", Value.vStr "hello"),
    ("feishualert_skip", Value.vDict skipC3)]⟩

/-- A rule whose required title and body are absent (construction must fail). -/
def ruleC4 : Dict := [("feishualert_botid", Value.vStr "B")]

/-- A rule that itself contains the synthesized key `feishualert_time`. -/
def ruleC10 : Dict :=
  [("feishualert_botid", Value.vStr "B"), ("feishualert_title", Value.vStr "T"),
   ("feishualert_body", Value.vStr "hello"), ("feishualert_time", Value.vStr "configured")]

/-- The configuration extracted from `ruleC10`. -/
def cfgC10 : Config :=
  ⟨Value.vStr defaultFeishuUrl, Value.vStr "B", Value.vStr "T",
   Value.vStr "hello", Value.vDict [], ruleC10⟩

end Feishu

namespace Feishu

/-! ### Helper lemmas about the dict operations -/

theorem dictGet_dictInsert_self (a : Dict) (k : String) (v : Value) :
    dictGet (dictInsert a k v) k = some v := by
  induction a with
  | nil => simp [dictInsert, dictGet]
  | cons p rest ih =>
    obtain ⟨k0, v0⟩ := p
    by_cases h : k0 = k
    · subst h; simp [dictInsert, dictGet]
    · simp [dictInsert, h, dictGet, List.find?] at ih ⊢
      simpa [h] using ih

theorem dictGet_dictInsert_ne (a : Dict) (k k0 : String) (v0 : Value) (h : k ≠ k0) :
    dictGet (dictInsert a k0 v0) k = dictGet a k := by
  induction a with
  | nil => simp [dictInsert, dictGet, List.find?, Ne.symm h]
  | cons p rest ih =>
    obtain ⟨k1, v1⟩ := p
    by_cases h1 : k1 = k0
    · subst h1
      simp [dictInsert, dictGet, List.find?, Ne.symm h]
    · simp only [dictInsert, if_neg h1]
      by_cases h2 : k1 = k
      · subst h2; simp [dictGet, List.find?]
      · simp [dictGet, List.find?, h2] at ih ⊢
        exact ih

theorem dictGet_eq_none_of_not_mem (a : Dict) (k : String) (h : k ∉ a.map Prod.fst) :
    dictGet a k = none := by
  induction a with
  | nil => rfl
  | cons p rest ih =>
    obtain ⟨k0, v0⟩ := p
    simp only [List.map_cons, List.mem_cons] at h
    push_neg at h
    simp [dictGet, List.find?, Ne.symm h.1]
    simpa [dictGet] using ih h.2

theorem dictUpdate_cons (a : Dict) (k : String) (v : Value) (b : Dict) :
    dictUpdate a ((k, v) :: b) = dictUpdate (dictInsert a k v) b := rfl

theorem dictGet_dictUpdate_not_mem (b : Dict) (a : Dict) (k : String)
    (h : k ∉ b.map Prod.fst) : dictGet (dictUpdate a b) k = dictGet a k := by
  induction b generalizing a with
  | nil => rfl
  | cons p rest ih =>
    obtain ⟨k0, v0⟩ := p
    simp only [List.map_cons, List.mem_cons] at h
    push_neg at h
    rw [dictUpdate_cons, ih _ h.2, dictGet_dictInsert_ne _ _ _ _ h.1]

theorem dictGet_dictUpdate_mem (b : Dict) (a : Dict) (k : String) (v : Value)
    (hnd : (b.map Prod.fst).Nodup) (h : dictGet b k = some v) :
    dictGet (dictUpdate a b) k = some v := by
  induction b generalizing a with
  | nil => simp [dictGet] at h
  | cons p rest ih =>
    obtain ⟨k0, v0⟩ := p
    simp only [List.map_cons, List.nodup_cons] at hnd
    by_cases hk : k0 = k
    · subst hk
      simp [dictGet, List.find?] at h
      subst h
      rw [dictUpdate_cons, dictGet_dictUpdate_not_mem _ _ _ hnd.1,
        dictGet_dictInsert_self]
    · simp [dictGet, List.find?, hk] at h
      rw [dictUpdate_cons, ih _ hnd.2 (by simpa [dictGet] using h)]

theorem keys_dictInsert (a : Dict) (k : String) (v : Value) :
    ∀ k0 ∈ (dictInsert a k v).map Prod.fst, k0 ∈ a.map Prod.fst ∨ k0 = k := by
  induction a with
  | nil => simp [dictInsert]
  | cons p rest ih =>
    obtain ⟨k1, v1⟩ := p
    by_cases h : k1 = k
    · subst h
      intro k0 hk0
      simp only [dictInsert, if_pos rfl, List.map_cons, List.mem_cons] at hk0
      exact Or.inl (by simpa using hk0)
    · intro k0 hk0
      simp only [dictInsert, if_neg h, List.map_cons, List.mem_cons] at hk0
      rcases hk0 with h0 | h0
      · exact Or.inl (by simp [h0])
      · rcases ih k0 h0 with h1 | h1
        · exact Or.inl (by simp [h1])
        · exact Or.inr h1

theorem keys_dictUpdate (b : Dict) (a : Dict) :
    ∀ k0 ∈ (dictUpdate a b).map Prod.fst, k0 ∈ a.map Prod.fst ∨ k0 ∈ b.map Prod.fst := by
  induction b generalizing a with
  | nil => intro k0 h; exact Or.inl h
  | cons p rest ih =>
    obtain ⟨k, v⟩ := p
    intro k0 h0
    rw [dictUpdate_cons] at h0
    rcases ih _ k0 h0 with h1 | h1
    · rcases keys_dictInsert a k v k0 h1 with h2 | h2
      · exact Or.inl h2
      · exact Or.inr (by simp [h2])
    · exact Or.inr (by simp [h1])

theorem dictInsert_not_mem (a : Dict) (k : String) (v : Value)
    (h : k ∉ a.map Prod.fst) : dictInsert a k v = a ++ [(k, v)] := by
  induction a with
  | nil => rfl
  | cons p rest ih =>
    obtain ⟨k0, v0⟩ := p
    simp only [List.map_cons, List.mem_cons] at h
    push_neg at h
    simp [dictInsert, Ne.symm h.1, ih h.2]

end Feishu

namespace Feishu

/-! ### Helper lemmas about flattening -/

theorem flattenGo_cons_nonDict (parent : String) (acc : Dict) (k : String) (v : Value)
    (rest : Dict) (hv : v.isDict = false) :
    flattenGo parent acc ((k, v) :: rest)
      = flattenGo parent (dictInsert acc (if parent = "" then k else parent ++ "." ++ k) v) rest := by
  cases v with
  | vDict d => simp [Value.isDict] at hv
  | vStr s => simp [flattenGo]
  | vInt n => simp [flattenGo]
  | vBool b => simp [flattenGo]
  | vNull => simp [flattenGo]
  | vList xs => simp [flattenGo]

theorem flattenGo_cons_dict (parent : String) (acc : Dict) (k : String)
    (d : List (String × Value)) (rest : Dict) :
    flattenGo parent acc ((k, Value.vDict d) :: rest)
      = flattenGo parent
          (dictUpdate acc (flattenGo (if parent = "" then k else parent ++ "." ++ k) [] d)) rest := by
  simp [flattenGo]

theorem dictInsert_nonDict (a : Dict) (k : String) (v : Value)
    (ha : ∀ p ∈ a, (p.2).isDict = false) (hv : v.isDict = false) :
    ∀ p ∈ dictInsert a k v, (p.2).isDict = false := by
  induction a with
  | nil =>
    intro p hp
    rcases List.mem_singleton.mp hp with rfl
    exact hv
  | cons q rest ih =>
    obtain ⟨k0, v0⟩ := q
    intro p hp
    by_cases h : k0 = k
    · subst h
      rw [show dictInsert ((k0, v0) :: rest) k0 v = (k0, v) :: rest by
        simp [dictInsert]] at hp
      rcases List.mem_cons.mp hp with h0 | h0
      · subst h0; exact hv
      · exact ha p (List.mem_cons_of_mem _ h0)
    · rw [show dictInsert ((k0, v0) :: rest) k v = (k0, v0) :: dictInsert rest k v by
        simp [dictInsert, h]] at hp
      rcases List.mem_cons.mp hp with h0 | h0
      · subst h0; exact ha (k0, v0) (List.mem_cons_self _ _)
      · exact ih (fun q hq => ha q (List.mem_cons_of_mem _ hq)) p h0

theorem dictUpdate_nonDict (b : Dict) (a : Dict)
    (ha : ∀ p ∈ a, (p.2).isDict = false) (hb : ∀ p ∈ b, (p.2).isDict = false) :
    ∀ p ∈ dictUpdate a b, (p.2).isDict = false := by
  induction b generalizing a with
  | nil => exact ha
  | cons q rest ih =>
    obtain ⟨k, v⟩ := q
    rw [dictUpdate_cons]
    exact ih _
      (dictInsert_nonDict a k v ha (hb (k, v) (List.mem_cons_self _ _)))
      (fun q hq => hb q (List.mem_cons_of_mem _ hq))

theorem flattenGo_nonDict (n : Nat) : ∀ (l : Dict), sizeOf l ≤ n →
    ∀ (parent : String) (acc : Dict), (∀ p ∈ acc, (p.2).isDict = false) →
    ∀ p ∈ flattenGo parent acc l, (p.2).isDict = false := by
  induction n with
  | zero =>
    intro l hl
    cases l with
    | nil => intro parent acc hacc; simpa [flattenGo] using hacc
    | cons q rest =>
      simp only [List.cons.sizeOf_spec] at hl
      omega
  | succ n ih =>
    intro l hl parent acc hacc
    cases l with
    | nil => simpa [flattenGo] using hacc
    | cons q rest =>
      obtain ⟨k, v⟩ := q
      cases hv : v.isDict with
      | false =>
        rw [flattenGo_cons_nonDict parent acc k v rest hv]
        refine ih rest ?_ parent _ (dictInsert_nonDict acc _ v hacc hv)
        simp only [List.cons.sizeOf_spec, Prod.mk.sizeOf_spec] at hl
        omega
      | true =>
        obtain ⟨d, rfl⟩ : ∃ d, v = Value.vDict d := by
          cases v with
          | vDict d => exact ⟨d, rfl⟩
          | vStr s => simp [Value.isDict] at hv
          | vInt n => simp [Value.isDict] at hv
          | vBool b => simp [Value.isDict] at hv
          | vNull => simp [Value.isDict] at hv
          | vList xs => simp [Value.isDict] at hv
        rw [flattenGo_cons_dict]
        have hsz : sizeOf rest ≤ n ∧ sizeOf d ≤ n := by
          simp only [List.cons.sizeOf_spec, Prod.mk.sizeOf_spec,
            Value.vDict.sizeOf_spec] at hl
          omega
        refine ih rest hsz.1 parent _
          (dictUpdate_nonDict _ acc hacc (ih d hsz.2 _ [] (by simp)))

theorem flattenGo_flat_append : ∀ (l acc : Dict),
    (∀ p ∈ l, (p.2).isDict = false) → (l.map Prod.fst).Nodup →
    (∀ k ∈ l.map Prod.fst, k ∉ acc.map Prod.fst) →
    flattenGo "" acc l = acc ++ l := by
  intro l
  induction l with
  | nil => intro acc _ _ _; simp [flattenGo]
  | cons q rest ih =>
    obtain ⟨k, v⟩ := q
    intro acc hflat hnd hdisj
    have hv : v.isDict = false := hflat (k, v) (List.mem_cons_self _ _)
    rw [flattenGo_cons_nonDict _ acc k v rest hv]
    rw [show (if ("" : String) = "" then k else "" ++ "." ++ k) = k by simp]
    rw [dictInsert_not_mem acc k v (hdisj k (by simp))]
    simp only [List.map_cons, List.nodup_cons] at hnd
    rw [ih (acc ++ [(k, v)]) (fun q hq => hflat q (List.mem_cons_of_mem _ hq)) hnd.2 ?_]
    · simp
    · intro k0 hk0
      simp only [List.map_append, List.mem_append] at *
      push_neg
      constructor
      · exact hdisj k0 (by simp [hk0])
      · intro hc
        simp at hc
        subst hc
        exact hnd.1 hk0

/-! ### Helper lemmas about the lexicographic comparison and the skip check -/

theorem pyLeChars_trans : ∀ (a b c : List Char),
    pyLeChars a b = true → pyLeChars b c = true → pyLeChars a c = true := by
  intro a
  induction a with
  | nil => intro b c _ _; rfl
  | cons x xs ih =>
    intro b c hab hbc
    cases b with
    | nil => simp [pyLeChars] at hab
    | cons y ys =>
      cases c with
      | nil => simp [pyLeChars] at hbc
      | cons z zs =>
        simp only [pyLeChars] at hab hbc ⊢
        rcases lt_trichotomy x y with hxy | hxy | hxy
        · rcases lt_trichotomy y z with hyz | hyz | hyz
          · simp [lt_trans hxy hyz]
          · subst hyz; simp [hxy]
          · rw [if_neg (lt_asymm hyz), if_neg (ne_of_gt hyz)] at hbc
            simp at hbc
        · subst hxy
          rw [if_neg (lt_irrefl x), if_pos rfl] at hab
          rcases lt_trichotomy x z with hxz | hxz | hxz
          · simp [hxz]
          · subst hxz
            rw [if_neg (lt_irrefl x), if_pos rfl] at hbc ⊢
            exact ih ys zs hab hbc
          · rw [if_neg (lt_asymm hxz), if_neg (ne_of_gt hxz)] at hbc
            simp at hbc
        · rw [if_neg (lt_asymm hxy), if_neg (ne_of_gt hxy)] at hab
          simp at hab

theorem pyStrLe_trans (a b c : String) (hab : pyStrLe a b = true) (hbc : pyStrLe b c = true) :
    pyStrLe a c = true :=
  pyLeChars_trans a.data b.data c.data hab hbc

theorem alert_skipped_iff (cfg : Config) (now alert_time : String) (ms : List Dict)
    (http : HttpResult) :
    alert cfg now alert_time ms http = AlertResult.skipped ↔ skipNow cfg.skip now = true := by
  unfold alert
  cases hs : skipNow cfg.skip now with
  | true => simp [hs]
  | false =>
    simp only [hs, Bool.false_eq_true, if_false]
    cases http <;> simp

end Feishu

namespace Feishu

/-! ### Further helper lemmas about lookup, the skip check and `alert` -/

theorem dictGet_mem_keys (d : Dict) (k : String) (h : k ∈ d.map Prod.fst) :
    ∃ v, dictGet d k = some v := by
  induction d with
  | nil => simp at h
  | cons p rest ih =>
    obtain ⟨k0, v0⟩ := p
    by_cases hk : k0 = k
    · subst hk
      exact ⟨v0, by simp [dictGet, List.find?]⟩
    · have hmem : k ∈ rest.map Prod.fst := by
        simp only [List.map_cons, List.mem_cons] at h
        rcases h with h | h
        · exact absurd h.symm hk
        · exact h
      obtain ⟨v1, hv1⟩ := ih hmem
      refine ⟨v1, ?_⟩
      simpa [dictGet, List.find?, hk] using hv1

theorem skipNow_vDict_iff (d : Dict) (now : String) :
    skipNow (Value.vDict d) now = true ↔
    ∃ s e, dictGet d "start" = some (Value.vStr s) ∧ dictGet d "end" = some (Value.vStr e)
      ∧ (pyStrLe s now && pyStrLe now e) = true := by
  unfold skipNow
  rcases h1 : dictGet d "start" with _ | v1
  · simp [h1]
  · rcases h2 : dictGet d "end" with _ | v2
    · cases v1 <;> simp [h1, h2]
    · cases v1 <;> cases v2 <;> simp [h1, h2]

theorem alert_success_eq (cfg : Config) (now alert_time : String) (ms : List Dict)
    (hs : skipNow cfg.skip now = false) :
    alert cfg now alert_time ms HttpResult.success
      = AlertResult.completed
          ⟨pyStr cfg.url ++ pyStr cfg.bot_id,
           mkMessage (safe_format (pyStr cfg.body) (mergeContext cfg alert_time ms))⟩ := by
  unfold alert
  rw [if_neg (by simp [hs])]

theorem alert_failure_eq (cfg : Config) (now alert_time : String) (ms : List Dict)
    (e : String) (hs : skipNow cfg.skip now = false) :
    alert cfg now alert_time ms (HttpResult.failure e)
      = AlertResult.deliveryError
          ⟨pyStr cfg.url ++ pyStr cfg.bot_id,
           mkMessage (safe_format (pyStr cfg.body) (mergeContext cfg alert_time ms))⟩
          ("Feishu request failed: " ++ e) := by
  unfold alert
  rw [if_neg (by simp [hs])]

theorem truthy_getD_iff (rule : Dict) (k : String)
    (hk : ∀ v, dictGet rule k = some v → ∃ s, v = Value.vStr s) :
    truthy (dictGetD rule k (Value.vStr "")) = true
      ↔ ∃ s, dictGet rule k = some (Value.vStr s) ∧ s ≠ "" := by
  unfold dictGetD
  rcases hg : dictGet rule k with _ | v
  · simp [truthy]
  · obtain ⟨s, rfl⟩ := hk v hg
    simp [truthy]

/-! ### Helper lemmas about last-entry lookup, leaf paths and nodup keys -/

theorem dictGet_dictInsert_eq (a : Dict) (k0 : String) (v : Value) (k : String) :
    dictGet (dictInsert a k0 v) k = if k0 = k then some v else dictGet a k := by
  by_cases h : k0 = k
  · subst h
    rw [if_pos rfl, dictGet_dictInsert_self]
  · rw [if_neg h, dictGet_dictInsert_ne a k k0 v (Ne.symm h)]

theorem or_if_none {c : Prop} [Decidable c] (v : Value) (o : Option Value) :
    Option.or (if c then some v else none) o = if c then some v else o := by
  by_cases h : c <;> simp [h]

theorem dictGetLast_not_mem (d : Dict) (k : String) (h : k ∉ d.map Prod.fst) :
    dictGetLast d k = none := by
  induction d with
  | nil => rfl
  | cons p rest ih =>
    obtain ⟨k0, v0⟩ := p
    simp only [List.map_cons, List.mem_cons] at h
    push_neg at h
    simp [dictGetLast, ih h.2, Ne.symm h.1]

theorem dictGetLast_of_nodup (d : Dict) (k : String) (hnd : (d.map Prod.fst).Nodup) :
    dictGetLast d k = dictGet d k := by
  induction d with
  | nil => rfl
  | cons p rest ih =>
    obtain ⟨k0, v0⟩ := p
    simp only [List.map_cons, List.nodup_cons] at hnd
    by_cases h : k0 = k
    · subst h
      rw [show dictGetLast ((k0, v0) :: rest) k0
          = Option.or (dictGetLast rest k0) (some v0) by simp [dictGetLast]]
      rw [dictGetLast_not_mem rest k0 hnd.1]
      simp [dictGet, List.find?]
    · rw [show dictGetLast ((k0, v0) :: rest) k = dictGetLast rest k by
        simp [dictGetLast, h]]
      rw [ih hnd.2]
      simp [dictGet, List.find?, h]

theorem dictGet_of_mem_nodup (d : Dict) (k : String) (v : Value)
    (hnd : (d.map Prod.fst).Nodup) (hmem : (k, v) ∈ d) : dictGet d k = some v := by
  induction d with
  | nil => cases hmem
  | cons p rest ih =>
    obtain ⟨k0, v0⟩ := p
    simp only [List.map_cons, List.nodup_cons] at hnd
    rcases List.mem_cons.mp hmem with h | h
    · injection h with h1 h2
      subst h1
      subst h2
      simp [dictGet, List.find?]
    · have hk : k ≠ k0 := by
        intro hh
        subst hh
        exact hnd.1 (List.mem_map.mpr ⟨(k, v), h, rfl⟩)
      rw [show dictGet ((k0, v0) :: rest) k = dictGet rest k by
        simp [dictGet, List.find?, Ne.symm hk]]
      exact ih hnd.2 h

theorem dictGetLast_append (x y : Dict) (k : String) :
    dictGetLast (x ++ y) k = Option.or (dictGetLast y k) (dictGetLast x k) := by
  induction x with
  | nil => simp [dictGetLast]
  | cons p rest ih =>
    obtain ⟨k0, v0⟩ := p
    show Option.or (dictGetLast (rest ++ y) k) (if k0 = k then some v0 else none)
      = Option.or (dictGetLast y k)
          (Option.or (dictGetLast rest k) (if k0 = k then some v0 else none))
    rw [ih, Option.or_assoc]

theorem dictInsert_nodupKeys (a : Dict) (k : String) (v : Value)
    (h : (a.map Prod.fst).Nodup) : ((dictInsert a k v).map Prod.fst).Nodup := by
  induction a with
  | nil => simp [dictInsert]
  | cons p rest ih =>
    obtain ⟨k0, v0⟩ := p
    simp only [List.map_cons, List.nodup_cons] at h
    by_cases hk : k0 = k
    · subst hk
      rw [show dictInsert ((k0, v0) :: rest) k0 v = (k0, v) :: rest by simp [dictInsert]]
      simp only [List.map_cons, List.nodup_cons]
      exact ⟨h.1, h.2⟩
    · rw [show dictInsert ((k0, v0) :: rest) k v = (k0, v0) :: dictInsert rest k v by
        simp [dictInsert, hk]]
      simp only [List.map_cons, List.nodup_cons]
      refine ⟨?_, ih h.2⟩
      intro hmem
      rcases keys_dictInsert rest k v k0 hmem with h1 | h1
      · exact h.1 h1
      · exact hk h1

theorem dictUpdate_nodupKeys (b a : Dict) (h : (a.map Prod.fst).Nodup) :
    ((dictUpdate a b).map Prod.fst).Nodup := by
  induction b generalizing a with
  | nil => exact h
  | cons p rest ih =>
    obtain ⟨k, v⟩ := p
    rw [dictUpdate_cons]
    exact ih _ (dictInsert_nodupKeys a k v h)

theorem flattenGo_nodupKeys (n : Nat) : ∀ (l : Dict), sizeOf l ≤ n →
    ∀ (parent : String) (acc : Dict),
    (acc.map Prod.fst).Nodup → ((flattenGo parent acc l).map Prod.fst).Nodup := by
  induction n with
  | zero =>
    intro l hl
    cases l with
    | nil => intro parent acc hacc; simpa [flattenGo] using hacc
    | cons q rest =>
      simp only [List.cons.sizeOf_spec] at hl
      omega
  | succ n ih =>
    intro l hl parent acc hacc
    cases l with
    | nil => simpa [flattenGo] using hacc
    | cons q rest =>
      obtain ⟨k, v⟩ := q
      cases hv : v.isDict with
      | false =>
        rw [flattenGo_cons_nonDict parent acc k v rest hv]
        refine ih rest ?_ parent _ (dictInsert_nodupKeys acc _ v hacc)
        simp only [List.cons.sizeOf_spec, Prod.mk.sizeOf_spec] at hl
        omega
      | true =>
        obtain ⟨d, rfl⟩ : ∃ d, v = Value.vDict d := by
          cases v with
          | vDict d => exact ⟨d, rfl⟩
          | vStr s => simp [Value.isDict] at hv
          | vInt m => simp [Value.isDict] at hv
          | vBool b => simp [Value.isDict] at hv
          | vNull => simp [Value.isDict] at hv
          | vList xs => simp [Value.isDict] at hv
        rw [flattenGo_cons_dict]
        have hsz : sizeOf rest ≤ n := by
          simp only [List.cons.sizeOf_spec, Prod.mk.sizeOf_spec,
            Value.vDict.sizeOf_spec] at hl
          omega
        exact ih rest hsz parent _ (dictUpdate_nodupKeys _ acc hacc)

theorem leafPaths_cons_nonDict (parent k : String) (v : Value) (rest : Dict)
    (hv : v.isDict = false) :
    leafPaths parent ((k, v) :: rest)
      = ((if parent = "" then k else parent ++ "." ++ k), v) :: leafPaths parent rest := by
  cases v with
  | vDict d => simp [Value.isDict] at hv
  | vStr s => simp [leafPaths]
  | vInt m => simp [leafPaths]
  | vBool b => simp [leafPaths]
  | vNull => simp [leafPaths]
  | vList xs => simp [leafPaths]

theorem leafPaths_cons_dict (parent k : String) (d : List (String × Value)) (rest : Dict) :
    leafPaths parent ((k, Value.vDict d) :: rest)
      = leafPaths (if parent = "" then k else parent ++ "." ++ k) d
        ++ leafPaths parent rest := by
  simp [leafPaths]

theorem dictGet_dictUpdate_eq (b a : Dict) (k : String) :
    dictGet (dictUpdate a b) k = Option.or (dictGetLast b k) (dictGet a k) := by
  induction b generalizing a with
  | nil => simp [dictUpdate, dictGetLast]
  | cons p rest ih =>
    obtain ⟨k0, v0⟩ := p
    rw [dictUpdate_cons, ih]
    rw [show dictGetLast ((k0, v0) :: rest) k
        = Option.or (dictGetLast rest k) (if k0 = k then some v0 else none) from rfl]
    rw [Option.or_assoc, or_if_none, dictGet_dictInsert_eq]

theorem flattenGo_get (n : Nat) : ∀ (l : Dict), sizeOf l ≤ n →
    ∀ (parent : String) (acc : Dict) (k : String),
    dictGet (flattenGo parent acc l) k
      = Option.or (dictGetLast (leafPaths parent l) k) (dictGet acc k) := by
  induction n with
  | zero =>
    intro l hl
    cases l with
    | nil => intro parent acc k; simp [flattenGo, leafPaths, dictGetLast]
    | cons q rest =>
      simp only [List.cons.sizeOf_spec] at hl
      omega
  | succ n ih =>
    intro l hl parent acc k
    cases l with
    | nil => simp [flattenGo, leafPaths, dictGetLast]
    | cons q rest =>
      obtain ⟨k0, v⟩ := q
      have hrest : sizeOf rest ≤ n := by
        simp only [List.cons.sizeOf_spec, Prod.mk.sizeOf_spec] at hl
        omega
      cases hv : v.isDict with
      | false =>
        rw [flattenGo_cons_nonDict parent acc k0 v rest hv,
          leafPaths_cons_nonDict parent k0 v rest hv]
        rw [ih rest hrest]
        rw [show dictGetLast
              (((if parent = "" then k0 else parent ++ "." ++ k0), v) :: leafPaths parent rest) k
            = Option.or (dictGetLast (leafPaths parent rest) k)
                (if (if parent = "" then k0 else parent ++ "." ++ k0) = k then some v else none)
            from rfl]
        rw [Option.or_assoc, or_if_none, dictGet_dictInsert_eq]
      | true =>
        obtain ⟨d, rfl⟩ : ∃ d, v = Value.vDict d := by
          cases v with
          | vDict d => exact ⟨d, rfl⟩
          | vStr s => simp [Value.isDict] at hv
          | vInt m => simp [Value.isDict] at hv
          | vBool b => simp [Value.isDict] at hv
          | vNull => simp [Value.isDict] at hv
          | vList xs => simp [Value.isDict] at hv
        have hd : sizeOf d ≤ n := by
          simp only [List.cons.sizeOf_spec, Prod.mk.sizeOf_spec,
            Value.vDict.sizeOf_spec] at hl
          omega
        rw [flattenGo_cons_dict, leafPaths_cons_dict]
        rw [ih rest hrest, dictGet_dictUpdate_eq]
        have hX : dictGetLast
              (flattenGo (if parent = "" then k0 else parent ++ "." ++ k0) [] d) k
            = dictGetLast
                (leafPaths (if parent = "" then k0 else parent ++ "." ++ k0) d) k := by
          rw [dictGetLast_of_nodup _ _ (flattenGo_nodupKeys n d hd _ [] (by simp))]
          rw [ih d hd]
          simp [dictGet]
        rw [hX, dictGetLast_append, Option.or_assoc]

theorem flatten_dict_get (m : Dict) (parent k : String) :
    dictGet (flatten_dict m parent) k = dictGetLast (leafPaths parent m) k := by
  unfold flatten_dict
  rw [flattenGo_get (sizeOf m) m le_rfl]
  simp [dictGet]

/-! ### The claims -/

/-- C1: for the dispatcher constructed from the configuration with botid
`"B"`, title `"T"` and body `"Host: {host.name} Status: {status}"`,
dispatching the match sequence `[{"host": {"name": "srv1"}, "status": 502}]`
renders the body to exactly `"Host: srv1 Status: 502"` and performs one HTTP
POST of the JSON body `{"msg_type": "text", "content": {"text": "Host: srv1
Status: 502"}}` to the URL formed by the url prefix followed by `"B"`. -/
theorem claim_C1 :
    init ruleC1 = Except.ok cfgC1
  ∧ alert cfgC1 "12:00:00" "2026-02-03 12:00:00" [matchC1] HttpResult.success
      = AlertResult.completed
          ⟨"https://open.feishu.cn/open-apis/bot/v2/hook/B",
           Value.vDict [("msg_type", Value.vStr "text"),
             ("content", Value.vDict [("text", Value.vStr "Host: srv1 Status: 502")])]⟩ := by
  refine ⟨rfl, ?_⟩
  have h1 : flatten_dict matchC1 ""
      = [("host.name", Value.vStr "srv1"), ("status", Value.vInt 502)] := by
    simp [flatten_dict, flattenGo, dictUpdate, dictInsert, matchC1]
  have hm : mergeContext cfgC1 "2026-02-03 12:00:00" [matchC1] =
      [("feishualert_title", Value.vStr "T"),
       ("feishualert_time", Value.vStr "2026-02-03 12:00:00"),
       ("feishualert_botid", Value.vStr "B"),
       ("feishualert_body", Value.vStr "Host: \x7bhost.name\x7d Status: \x7bstatus\x7d"),
       ("host.name", Value.vStr "srv1"), ("status", Value.vInt 502),
       ("@timestamp", Value.vStr "2026-02-03 12:00:00")] := by
    show dictUpdate (mergeBase cfgC1 _) (flatDefaults matchC1 _) = _
    unfold flatDefaults
    rw [h1]
    rfl
  unfold alert
  rw [hm]
  rfl

/-- C2: the safe-rendering operation never raises (it is total by
construction): when direct keyed substitution fails with a `KeyError`
because some placeholder has no corresponding context key, the result is the
per-key manual scan-and-replace over all keys present in the context (which
leaves placeholders for absent keys untouched); when direct substitution
succeeds its result is returned; in particular rendering `"{a} {b}"` against
`{"a": "x"}` returns `"x {b}"`. -/
theorem claim_C2 :
    (∀ (text : String) (data : Dict) (k : String),
       pyFormat text data = Except.error (PyErr.keyError k) →
       safe_format text data = manualReplace text data)
  ∧ (∀ (text : String) (data : Dict) (s : String),
       pyFormat text data = Except.ok s → safe_format text data = s)
  ∧ safe_format "\x7ba\x7d \x7bb\x7d" [("a", Value.vStr "x")] = "x \x7bb\x7d" := by
  refine ⟨?_, ?_, rfl⟩
  · intro text data k h
    unfold safe_format
    rw [h]
  · intro text data s h
    unfold safe_format
    rw [h]

/-- Witness for C2: on the template `"{a} {b}"` with context `{"a": "x"}`
direct substitution fails with `KeyError "b"`, the theorem yields the manual
fallback, and that fallback evaluates to `"x {b}"`. -/
theorem claim_C2_witness :
    pyFormat "\x7ba\x7d \x7bb\x7d" [("a", Value.vStr "x")] = Except.error (PyErr.keyError "b")
  ∧ safe_format "\x7ba\x7d \x7bb\x7d" [("a", Value.vStr "x")]
      = manualReplace "\x7ba\x7d \x7bb\x7d" [("a", Value.vStr "x")]
  ∧ manualReplace "\x7ba\x7d \x7bb\x7d" [("a", Value.vStr "x")] = "x \x7bb\x7d" :=
  ⟨rfl, claim_C2.1 "\x7ba\x7d \x7bb\x7d" [("a", Value.vStr "x")] "b" rfl, rfl⟩

/-- C5: every dispatch invocation either skips, or completes after a
successful POST, or — exactly when the HTTP layer fails (connection failure,
timeout, or the non-2xx status surfaced by `raise_for_status`) — raises the
single wrapped delivery error `"Feishu request failed: " ++ err`; no other
outcome (and in particular no other exception) is possible, and rendering
problems never abort dispatch. -/
theorem claim_C5 (cfg : Config) (now alert_time : String) (ms : List Dict)
    (http : HttpResult) :
    alert cfg now alert_time ms http = AlertResult.skipped
  ∨ (http = HttpResult.success ∧
      ∃ p, alert cfg now alert_time ms http = AlertResult.completed p)
  ∨ (∃ e p, http = HttpResult.failure e ∧
      alert cfg now alert_time ms http
        = AlertResult.deliveryError p ("Feishu request failed: " ++ e)) := by
  cases hs : skipNow cfg.skip now with
  | true => exact Or.inl ((alert_skipped_iff cfg now alert_time ms http).mpr hs)
  | false =>
    unfold alert
    simp only [hs, Bool.false_eq_true, if_false]
    cases http with
    | success => exact Or.inr (Or.inl ⟨rfl, _, rfl⟩)
    | failure e => exact Or.inr (Or.inr ⟨e, _, rfl, rfl⟩)

/-- C6 counterexample: the claim asserts that non-mapping values are copied
unchanged as leaves under their joined key path, but two distinct paths can
join to the same key: flattening `{"a": {"b": 1}, "a.b": 2}` yields
`{"a.b": 2}` and the leaf `1` (whose joined path is `a.b`) is not in the
result — the later-processed entry overwrote it. -/
theorem claim_C6_counterexample :
    flatten_dict [("a", Value.vDict [("b", Value.vInt 1)]), ("a.b", Value.vInt 2)] ""
      = [("a.b", Value.vInt 2)]
  ∧ ("a.b", Value.vInt 1)
      ∉ flatten_dict [("a", Value.vDict [("b", Value.vInt 1)]), ("a.b", Value.vInt 2)] "" := by
  have h : flatten_dict [("a", Value.vDict [("b", Value.vInt 1)]), ("a.b", Value.vInt 2)] ""
      = [("a.b", Value.vInt 2)] := by
    simp [flatten_dict, flattenGo, dictUpdate, dictInsert]
  refine ⟨h, ?_⟩
  rw [h]
  intro hmem
  simp at hmem

/-- C6 (amended): flattening returns a single-level mapping (no value of the
result is itself a mapping, at arbitrary nesting depth) whose keys are the
parent and child keys concatenated with a `"."` separator along each path,
with non-mapping values copied as leaves under their joined key path, except
that when two distinct paths join to the same key the leaf processed later
overwrites the earlier one: for every key, the flattened mapping holds the
LAST leaf of the nested mapping (in iteration order) whose joined path is
that key (`flatten_dict_get` generalized here via `leafPaths`, the spec-side
leaf/path reading); when no two paths collide every leaf appears unchanged
under its joined key; flattening `{"a": {"b": 1}, "a.b": 2}` yields
`{"a.b": 2}`, and flattening `{"host": {"name": "a"}, "status": 1}` yields
`{"host.name": "a", "status": 1}`. -/
theorem claim_C6 :
    (∀ (m : Dict) (parent : String), ∀ p ∈ flatten_dict m parent, (p.2).isDict = false)
  ∧ (∀ (m : Dict) (parent k : String),
       dictGet (flatten_dict m parent) k = dictGetLast (leafPaths parent m) k)
  ∧ (∀ (m : Dict) (parent : String), ((leafPaths parent m).map Prod.fst).Nodup →
       ∀ p ∈ leafPaths parent m, dictGet (flatten_dict m parent) p.1 = some p.2)
  ∧ flatten_dict [("a", Value.vDict [("b", Value.vInt 1)]), ("a.b", Value.vInt 2)] ""
      = [("a.b", Value.vInt 2)]
  ∧ flatten_dict [("host", Value.vDict [("name", Value.vStr "a")]), ("status", Value.vInt 1)] ""
      = [("host.name", Value.vStr "a"), ("status", Value.vInt 1)] := by
  refine ⟨?_, ?_, ?_, ?_, ?_⟩
  · intro m parent p hp
    exact flattenGo_nonDict (sizeOf m) m le_rfl parent [] (by simp) p hp
  · intro m parent k
    exact flatten_dict_get m parent k
  · intro m parent hnd p hp
    obtain ⟨pk, pv⟩ := p
    rw [flatten_dict_get m parent pk, dictGetLast_of_nodup _ _ hnd]
    exact dictGet_of_mem_nodup _ _ _ hnd hp
  · simp [flatten_dict, flattenGo, dictUpdate, dictInsert]
  · simp [flatten_dict, flattenGo, dictUpdate, dictInsert]

/-- Witness for C6 (amended): at the nested example, the flattened lookup of
`host.name` agrees with the last-leaf lookup, the collision-free leaf
`("host.name", "a")` appears unchanged, and the extracted leaf is not a
mapping. -/
theorem claim_C6_witness :
    dictGet
        (flatten_dict [("host", Value.vDict [("name", Value.vStr "a")]), ("status", Value.vInt 1)] "")
        "host.name"
      = dictGetLast
          (leafPaths "" [("host", Value.vDict [("name", Value.vStr "a")]), ("status", Value.vInt 1)])
          "host.name"
  ∧ dictGet
        (flatten_dict [("host", Value.vDict [("name", Value.vStr "a")]), ("status", Value.vInt 1)] "")
        "host.name"
      = some (Value.vStr "a")
  ∧ (Value.vStr "a").isDict = false :=
  ⟨claim_C6.2.1 [("host", Value.vDict [("name", Value.vStr "a")]), ("status", Value.vInt 1)]
     "" "host.name",
   claim_C6.2.2.1 [("host", Value.vDict [("name", Value.vStr "a")]), ("status", Value.vInt 1)]
     "" (by simp [leafPaths]) ("host.name", Value.vStr "a") (by simp [leafPaths]),
   claim_C6.1 [("host", Value.vDict [("name", Value.vStr "a")]), ("status", Value.vInt 1)] ""
     ("host.name", Value.vStr "a")
     (by rw [claim_C6.2.2.2.2]; exact List.mem_cons_self _ _)⟩

/-- C8: on an already-flat mapping (all values non-mappings, keys distinct as
in every Python dict) the flattening operation is the identity. -/
theorem claim_C8 (d : Dict) (hflat : ∀ p ∈ d, (p.2).isDict = false)
    (hnd : (d.map Prod.fst).Nodup) : flatten_dict d "" = d := by
  unfold flatten_dict
  rw [flattenGo_flat_append d [] hflat hnd (by simp)]
  simp

/-- Witness for C8: a concrete two-entry flat mapping is returned unchanged. -/
theorem claim_C8_witness :
    flatten_dict [("a", Value.vInt 1), ("b", Value.vStr "x")] ""
      = [("a", Value.vInt 1), ("b", Value.vStr "x")] :=
  claim_C8 [("a", Value.vInt 1), ("b", Value.vStr "x")]
    (by simp [Value.isDict]) (by simp)

end Feishu

namespace Feishu

/-- C3: for a configured skip mapping holding both `"start"` and `"end"`
(`HH:MM:SS` strings), dispatch returns `skipped` (nothing sent, no error)
exactly when `start <= now <= end` under plain lexicographic string
comparison, inclusive at both ends; consequently a window with
`start > end` lexicographically (e.g. crossing midnight) never causes a
skip, and when `"start"` or `"end"` is absent the check never suppresses
dispatch. -/
theorem claim_C3 (cfg : Config) (now alert_time : String) (ms : List Dict)
    (http : HttpResult) (d : Dict) (hsk : cfg.skip = Value.vDict d) :
    (∀ s e, dictGet d "start" = some (Value.vStr s) →
       dictGet d "end" = some (Value.vStr e) →
       (alert cfg now alert_time ms http = AlertResult.skipped
         ↔ (pyStrLe s now && pyStrLe now e) = true))
  ∧ (∀ s e, dictGet d "start" = some (Value.vStr s) →
       dictGet d "end" = some (Value.vStr e) →
       pyStrLe s e = false →
       alert cfg now alert_time ms http ≠ AlertResult.skipped)
  ∧ ((dictGet d "start" = none ∨ dictGet d "end" = none) →
       alert cfg now alert_time ms http ≠ AlertResult.skipped) := by
  have hiff : ∀ s e, dictGet d "start" = some (Value.vStr s) →
      dictGet d "end" = some (Value.vStr e) →
      (alert cfg now alert_time ms http = AlertResult.skipped
        ↔ (pyStrLe s now && pyStrLe now e) = true) := by
    intro s e hs he
    rw [alert_skipped_iff, hsk, skipNow_vDict_iff]
    constructor
    · rintro ⟨s0, e0, hs0, he0, hval⟩
      obtain rfl : s0 = s := by
        have h0 := Option.some.inj (hs.symm.trans hs0)
        exact (Value.vStr.inj h0).symm
      obtain rfl : e0 = e := by
        have h0 := Option.some.inj (he.symm.trans he0)
        exact (Value.vStr.inj h0).symm
      exact hval
    · intro hval
      exact ⟨s, e, hs, he, hval⟩
  refine ⟨hiff, ?_, ?_⟩
  · intro s e hs he hlt h
    have hb := (hiff s e hs he).mp h
    simp only [Bool.and_eq_true] at hb
    have := pyStrLe_trans s now e hb.1 hb.2
    rw [hlt] at this
    exact Bool.noConfusion this
  · intro hnone h
    rw [alert_skipped_iff, hsk, skipNow_vDict_iff] at h
    obtain ⟨s, e, hs, he, _⟩ := h
    rcases hnone with h0 | h0
    · rw [h0] at hs; exact Option.noConfusion hs
    · rw [h0] at he; exact Option.noConfusion he

/-- Witness for C3: with the window 22:00:00–23:00:00, dispatch at 22:30:00
skips and dispatch at 08:00:00 does not. -/
theorem claim_C3_witness :
    alert cfgC3 "22:30:00" "2026-02-03 22:30:00" [] HttpResult.success = AlertResult.skipped
  ∧ alert cfgC3 "08:00:00" "2026-02-03 08:00:00" [] HttpResult.success ≠ AlertResult.skipped := by
  constructor
  · exact ((claim_C3 cfgC3 "22:30:00" "2026-02-03 22:30:00" [] HttpResult.success skipC3
      rfl).1 "22:00:00" "23:00:00" rfl rfl).mpr (by decide)
  · intro h
    have hb := ((claim_C3 cfgC3 "08:00:00" "2026-02-03 08:00:00" [] HttpResult.success skipC3
      rfl).1 "22:00:00" "23:00:00" rfl rfl).mp h
    exact absurd hb (by decide)

/-- C4: construction raises the configuration error iff one of the required
fields botid/title/body is missing from the rule mapping or holds the empty
string, and succeeds (at construction time) whenever all three are present
and non-empty, whatever other fields the rule contains; the hypotheses
restrict the three required fields to strings, per the configuration
surface. -/
theorem claim_C4 (rule : Dict)
    (hb : ∀ v, dictGet rule "feishualert_botid" = some v → ∃ s, v = Value.vStr s)
    (ht : ∀ v, dictGet rule "feishualert_title" = some v → ∃ s, v = Value.vStr s)
    (hd : ∀ v, dictGet rule "feishualert_body" = some v → ∃ s, v = Value.vStr s) :
    ((∃ c, init rule = Except.ok c) ↔
       ((∃ s, dictGet rule "feishualert_botid" = some (Value.vStr s) ∧ s ≠ "") ∧
        (∃ s, dictGet rule "feishualert_title" = some (Value.vStr s) ∧ s ≠ "") ∧
        (∃ s, dictGet rule "feishualert_body" = some (Value.vStr s) ∧ s ≠ "")))
  ∧ ((init rule = Except.error "Configure botid|title|body is invalid") ↔
       ¬ ((∃ s, dictGet rule "feishualert_botid" = some (Value.vStr s) ∧ s ≠ "") ∧
          (∃ s, dictGet rule "feishualert_title" = some (Value.vStr s) ∧ s ≠ "") ∧
          (∃ s, dictGet rule "feishualert_body" = some (Value.vStr s) ∧ s ≠ ""))) := by
  have h1 := truthy_getD_iff rule "feishualert_botid" hb
  have h2 := truthy_getD_iff rule "feishualert_title" ht
  have h3 := truthy_getD_iff rule "feishualert_body" hd
  unfold init
  by_cases hc : (truthy (dictGetD rule "feishualert_botid" (Value.vStr ""))
      && truthy (dictGetD rule "feishualert_title" (Value.vStr ""))
      && truthy (dictGetD rule "feishualert_body" (Value.vStr ""))) = true
  · rw [if_pos hc]
    have hr : (∃ s, dictGet rule "feishualert_botid" = some (Value.vStr s) ∧ s ≠ "") ∧
        (∃ s, dictGet rule "feishualert_title" = some (Value.vStr s) ∧ s ≠ "") ∧
        (∃ s, dictGet rule "feishualert_body" = some (Value.vStr s) ∧ s ≠ "") := by
      simp only [Bool.and_eq_true] at hc
      exact ⟨h1.mp hc.1.1, h2.mp hc.1.2, h3.mp hc.2⟩
    constructor
    · exact ⟨fun _ => hr, fun _ => ⟨_, rfl⟩⟩
    · constructor
      · intro he; exact absurd he (by simp)
      · intro hn; exact absurd hr hn
  · rw [if_neg hc]
    have hrn : ¬ ((∃ s, dictGet rule "feishualert_botid" = some (Value.vStr s) ∧ s ≠ "") ∧
        (∃ s, dictGet rule "feishualert_title" = some (Value.vStr s) ∧ s ≠ "") ∧
        (∃ s, dictGet rule "feishualert_body" = some (Value.vStr s) ∧ s ≠ "")) := by
      intro hr
      apply hc
      simp only [Bool.and_eq_true]
      exact ⟨⟨h1.mpr hr.1, h2.mpr hr.2.1⟩, h3.mpr hr.2.2⟩
    constructor
    · constructor
      · rintro ⟨c, hcc⟩; exact absurd hcc (by simp)
      · intro hr; exact absurd hr hrn
    · exact ⟨fun _ => hrn, fun _ => rfl⟩

/-- Witness for C4: a rule with only botid present is rejected at
construction with the source's error message. -/
theorem claim_C4_witness :
    init ruleC4 = Except.error "Configure botid|title|body is invalid" :=
  (claim_C4 ruleC4
    (fun v hv => ⟨"B", by simp [ruleC4, dictGet, List.find?] at hv; exact hv.symm⟩)
    (fun v hv => by simp [ruleC4, dictGet, List.find?] at hv)
    (fun v hv => by simp [ruleC4, dictGet, List.find?] at hv)).2.mpr
    (by
      rintro ⟨_, ⟨s, hs, _⟩, _⟩
      simp [ruleC4, dictGet, List.find?] at hs)

/-- C7: outside any skip window, dispatching an empty match sequence still
sends exactly one message; its render context is the base merge context
built from the two synthesized keys and the rule keys only (every key of the
context is `feishualert_title`, `feishualert_time` or a rule key — no
match-derived keys), and the posted body is the body template rendered
against exactly that context. -/
theorem claim_C7 (cfg : Config) (now alert_time : String) (http : HttpResult)
    (hskip : skipNow cfg.skip now = false) :
    mergeContext cfg alert_time [] =
      dictUpdate [("feishualert_title", cfg.title), ("feishualert_time", Value.vStr alert_time)]
        cfg.rule
  ∧ (∀ k ∈ (mergeContext cfg alert_time []).map Prod.fst,
      k = "feishualert_title" ∨ k = "feishualert_time" ∨ k ∈ cfg.rule.map Prod.fst)
  ∧ (∃ p, (alert cfg now alert_time [] http = AlertResult.completed p
        ∨ ∃ m, alert cfg now alert_time [] http = AlertResult.deliveryError p m)
      ∧ p.body = mkMessage (safe_format (pyStr cfg.body) (mergeContext cfg alert_time []))) := by
  refine ⟨rfl, ?_, ?_⟩
  · intro k hk
    rcases keys_dictUpdate cfg.rule
        [("feishualert_title", cfg.title), ("feishualert_time", Value.vStr alert_time)] k hk
      with h | h
    · simp only [List.map_cons, List.map_nil, List.mem_cons, List.not_mem_nil, or_false] at h
      rcases h with h | h
      · exact Or.inl h
      · exact Or.inr (Or.inl h)
    · exact Or.inr (Or.inr h)
  · cases http with
    | success =>
      exact ⟨_, Or.inl (alert_success_eq cfg now alert_time [] hskip), rfl⟩
    | failure e =>
      exact ⟨_, Or.inr ⟨_, alert_failure_eq cfg now alert_time [] e hskip⟩, rfl⟩

/-- Witness for C7: for the concrete skip-free configuration `cfgC9` the
empty-match render context is exactly the base context of synthesized and
rule keys. -/
theorem claim_C7_witness :
    mergeContext cfgC9 "2026-02-03 08:00:00" [] =
      dictUpdate
        [("feishualert_title", cfgC9.title), ("feishualert_time", Value.vStr "2026-02-03 08:00:00")]
        cfgC9.rule :=
  (claim_C7 cfgC9 "08:00:00" "2026-02-03 08:00:00" HttpResult.success rfl).1

/-- C9 counterexample: the claim says every outbound message carries a
top-level field named `"type"` with value `"text"`; the message actually
posted by a dispatch call has no field `"type"` — its message-type field is
named `"msg_type"`. -/
theorem claim_C9_counterexample :
    alert cfgC9 "12:00:00" "2026-02-03 12:00:00" [] HttpResult.success
      = AlertResult.completed postC9
  ∧ msgField postC9.body "type" = none
  ∧ msgField postC9.body "msg_type" = some (Value.vStr "text") :=
  ⟨rfl, rfl, rfl⟩

/-- C9 (amended): every outbound message constructed by a dispatch call has
the fixed shape `{"msg_type": "text", "content": {"text": <rendered
template>}}` — the message-type field is named `msg_type`, not `type` — and
exactly one such message is sent per dispatch call (the single post carried
by the non-skipped outcome). -/
theorem claim_C9 (cfg : Config) (now alert_time : String) (ms : List Dict)
    (http : HttpResult) (p : PostRequest)
    (h : alert cfg now alert_time ms http = AlertResult.completed p
       ∨ ∃ m, alert cfg now alert_time ms http = AlertResult.deliveryError p m) :
    p.body = Value.vDict
      [("msg_type", Value.vStr "text"),
       ("content", Value.vDict
         [("text", Value.vStr (safe_format (pyStr cfg.body) (mergeContext cfg alert_time ms)))])] := by
  cases hs : skipNow cfg.skip now with
  | true =>
    have hsk := (alert_skipped_iff cfg now alert_time ms http).mpr hs
    rcases h with h | ⟨m, h⟩ <;> rw [hsk] at h <;> exact absurd h (by simp)
  | false =>
    cases http with
    | success =>
      rw [alert_success_eq cfg now alert_time ms hs] at h
      rcases h with h | ⟨m, h⟩
      · injection h with h1
        rw [← h1]
        rfl
      · exact absurd h (by simp)
    | failure e =>
      rw [alert_failure_eq cfg now alert_time ms e hs] at h
      rcases h with h | ⟨m, h⟩
      · exact absurd h (by simp)
      · injection h with h1 h2
        rw [← h1]
        rfl

/-- Witness for C9 (amended): the concrete post of `claim_C9_counterexample`
has exactly the fixed `msg_type`/`content` shape. -/
theorem claim_C9_witness :
    postC9.body = Value.vDict
      [("msg_type", Value.vStr "text"),
       ("content", Value.vDict
         [("text", Value.vStr
            (safe_format (pyStr cfgC9.body) (mergeContext cfgC9 "2026-02-03 12:00:00" [])))])] :=
  claim_C9 cfgC9 "12:00:00" "2026-02-03 12:00:00" [] HttpResult.success postC9 (Or.inl rfl)

/-- C10: rule-configuration keys override the two synthesized keys in the
merge context built by dispatch: when the rule itself holds
`feishualert_time` (resp. `feishualert_title`), the rule's value — not the
freshly computed send time — appears in the base context merged before the
flattened match, hence also in the render context when the match sequence is
empty or its flattening lacks the key. -/
theorem claim_C10 (cfg : Config) (alert_time : String) (v : Value)
    (hnd : (cfg.rule.map Prod.fst).Nodup)
    (hv : dictGet cfg.rule "feishualert_time" = some v) :
    dictGet (mergeBase cfg alert_time) "feishualert_time" = some v
  ∧ dictGet (mergeContext cfg alert_time []) "feishualert_time" = some v
  ∧ (∀ m ms, dictGet (flatDefaults m alert_time) "feishualert_time" = none →
      dictGet (mergeContext cfg alert_time (m :: ms)) "feishualert_time" = some v)
  ∧ (∀ w, dictGet cfg.rule "feishualert_title" = some w →
      dictGet (mergeBase cfg alert_time) "feishualert_title" = some w) := by
  have hbase : dictGet (mergeBase cfg alert_time) "feishualert_time" = some v :=
    dictGet_dictUpdate_mem cfg.rule _ _ _ hnd hv
  refine ⟨hbase, hbase, ?_, ?_⟩
  · intro m ms hnone
    show dictGet (dictUpdate (mergeBase cfg alert_time) (flatDefaults m alert_time)) _ = _
    rw [dictGet_dictUpdate_not_mem _ _ _ ?_]
    · exact hbase
    · intro hmem
      obtain ⟨v0, hv0⟩ := dictGet_mem_keys _ _ hmem
      rw [hv0] at hnone
      exact Option.noConfusion hnone
  · intro w hw
    exact dictGet_dictUpdate_mem cfg.rule _ _ _ hnd hw

/-- Witness for C10: for the concrete rule carrying
`feishualert_time = "configured"`, the base merge context keeps the rule's
value rather than the fresh send time. -/
theorem claim_C10_witness :
    dictGet (mergeBase cfgC10 "2026-02-03 12:00:00") "feishualert_time"
      = some (Value.vStr "configured") :=
  (claim_C10 cfgC10 "2026-02-03 12:00:00" (Value.vStr "configured")
    (by decide) rfl).1

end Feishu
